import Mathlib

/-!
Shallow embedding of the client-side aggregation logic of the dashnusa
personal-finance app, taken from src/pages/Dashboard.tsx (fetchStats,
fetchChartData, fetchCategorySpending) and src/pages/Analysis.tsx
(fetchAnalysisData, fetchPieData and the pie-chart percentage label).

JavaScript numbers are idealized as `Option ℚ`: `some q` is a finite value,
`none` stands for a non-finite value (NaN, or the infinities produced by
dividing a nonzero value by zero).  `parseFloat(x.toString())` / `Number(x)`
applied to a row's amount is modelled by storing the parse result directly in
the record: `some q` when the amount parses to a finite number, `none` when
the parse yields NaN.
-/

namespace Budget

/-- An idealized JavaScript number: finite (`some q`) or non-finite (`none`). -/
abbrev JsNum := Option ℚ

/-- JS addition: any non-finite operand poisons the result. -/
def jadd : JsNum → JsNum → JsNum
  | some a, some b => some (a + b)
  | _, _ => none

/-- JS subtraction: any non-finite operand poisons the result. -/
def jsub : JsNum → JsNum → JsNum
  | some a, some b => some (a - b)
  | _, _ => none

/-- JS multiplication on the values arising here. -/
def jmul : JsNum → JsNum → JsNum
  | some a, some b => some (a * b)
  | _, _ => none

/-- JS division.  Division by zero never throws; it yields NaN (`0/0`) or an
infinity (`a/0`, `a ≠ 0`), both of which are non-finite, hence `none`. -/
def jdiv : JsNum → JsNum → JsNum
  | some a, some b => if b = 0 then none else some (a / b)
  | _, _ => none

/-- `reduce((acc, x) => acc + x, 0)` over a list of JS numbers. -/
def jsum (l : List JsNum) : JsNum := l.foldl jadd (some 0)

/-- A calendar date as the aggregation sees it: year, month (0-based, as in
JS `Date.getMonth`), day of month. -/
structure CalDate where
  year : ℕ
  month : Fin 12
  day : ℕ
deriving DecidableEq

/-- Indonesian (id-ID) short month names used by
`toLocaleDateString('id-ID', { month: 'short', year: 'numeric' })`. -/
def monthShort : List String :=
  ["Jan", "Feb", "Mar", "Apr", "Mei", "Jun",
   "Jul", "Agu", "Sep", "Okt", "Nov", "Des"]

/-- The grouping label `'id-ID', { month: 'short', year: 'numeric' }`,
e.g. "Jan 2024".  It depends only on (year, month), never on the day. -/
def monthLabel (y : ℕ) (m : Fin 12) : String :=
  monthShort.getD m.val "" ++ " " ++ toString y

/-- One row of the `transactions` table as the aggregation consumes it:
`type` is the raw string column, `amount` is the (already parsed) amount,
`date` the transaction date, `category` the joined `categories?.name`
(`none` when the row has no category or the category was deleted, since the
foreign key is `ON DELETE SET NULL`). -/
structure Txn where
  type : String
  amount : JsNum
  date : CalDate
  category : Option String
deriving DecidableEq

/-- The parsed amount of a row, read as a rational (0 for a NaN amount;
only used under a parseability hypothesis). -/
def amtQ (t : Txn) : ℚ := t.amount.getD 0

/-- The amount of `t` parsed to a finite number (no NaN). -/
def Parseable (t : Txn) : Prop := t.amount.isSome = true

instance (t : Txn) : Decidable (Parseable t) := by unfold Parseable; infer_instance

/-- Sum of the parsed amounts of a list of rows. -/
def sumQ (ts : List Txn) : ℚ := (ts.map amtQ).sum

/-- The result record of `fetchStats`. -/
structure Stats where
  totalIncome : JsNum
  totalExpense : JsNum
  balance : JsNum
deriving DecidableEq

/-- `reduce((sum, t) => sum + parseFloat(t.amount.toString()), 0)`. -/
def sumAmounts (ts : List Txn) : JsNum :=
  ts.foldl (fun s t => jadd s t.amount) (some 0)

/-- Dashboard.tsx `fetchStats` (lines 71-85): filter by type, reduce the
amounts, and report balance = income - expense.  This is the spec's
`computeTotals`. -/
def computeTotals (ts : List Txn) : Stats :=
  let income := sumAmounts (ts.filter (fun t => t.type == "income"))
  let expense := sumAmounts (ts.filter (fun t => t.type == "expense"))
  { totalIncome := income, totalExpense := expense, balance := jsub income expense }

/-- Insertion-ordered string-keyed map, as a JS `Map` (and, for the keys in
use here, a plain object) behaves: `set` updates an existing key in place
and appends a fresh key at the end. -/
def mapSet {V : Type} (k : String) (v : V) : List (String × V) → List (String × V)
  | [] => [(k, v)]
  | p :: rest => if p.1 = k then (k, v) :: rest else p :: mapSet k v rest

/-- `Map.get`: the value at a key, if present. -/
def lookup? {V : Type} (k : String) : List (String × V) → Option V
  | [] => none
  | p :: rest => if p.1 = k then some p.2 else lookup? k rest

/-- The shared shape of the grouping loops: for each row, read the current
value at the row's key (or nothing) and store the updated value. -/
def groupFold {V : Type} (keyOf : Txn → String) (upd : Option V → Txn → V) :
    List Txn → List (String × V) → List (String × V)
  | [], m => m
  | t :: ts, m => groupFold keyOf upd ts (mapSet (keyOf t) (upd (lookup? (keyOf t) m) t) m)

/-- One month group of the trend chart. -/
structure MonthAgg where
  income : JsNum
  expense : JsNum
deriving DecidableEq

/-- The label a row is grouped under in the trend computation. -/
def txnLabel (t : Txn) : String := monthLabel t.date.year t.date.month

/-- One step of the trend loop: `existing = map.get(month) || {income: 0,
expense: 0}`; then `if (t.type === 'income') existing.income += amount; else
existing.expense += amount`.  Note the else-branch catches every non-income
type. -/
def trendUpd (cur : Option MonthAgg) (t : Txn) : MonthAgg :=
  let ex := cur.getD ⟨some 0, some 0⟩
  if t.type = "income" then ⟨jadd ex.income t.amount, ex.expense⟩
  else ⟨ex.income, jadd ex.expense t.amount⟩

/-- Dashboard.tsx `fetchChartData` (98-119) / Analysis.tsx
`fetchAnalysisData` (72-93): group rows by formatted month label into an
insertion-ordered map.  This is the spec's `computeMonthlyTrend`; the final
`Array.from(map.entries())` is the association list itself. -/
def computeMonthlyTrend (ts : List Txn) : List (String × MonthAgg) :=
  groupFold txnLabel trendUpd ts []

/-- The bucket name of a row: `t.categories?.name || 'Tanpa Kategori'`.
JS `||` falls through on every falsy value, so an empty category name also
falls back to the synthetic label. -/
def effName (t : Txn) : String :=
  match t.category with
  | some n => if n = "" then "Tanpa Kategori" else n
  | none => "Tanpa Kategori"

/-- One step of the breakdown loop:
`current = map.get(name) || 0; map.set(name, current + amount)`.
A stored NaN is falsy, so `|| 0` resets it to zero before adding. -/
def bucketUpd (cur : Option JsNum) (t : Txn) : JsNum :=
  jadd (some ((cur.getD (some 0)).getD 0)) t.amount

/-- Dashboard.tsx `fetchCategorySpending` (132-139) / Analysis.tsx
`fetchPieData` (112-117): the rows are fetched with `.eq('type','expense')`
(the spec's `kindFilter = Expense`) and grouped by effective category name.
This is the spec's `computeCategoryBreakdown`, before the purely
presentational sort/truncate/color step of the dashboard variant. -/
def computeCategoryBreakdown (ts : List Txn) : List (String × JsNum) :=
  groupFold effName bucketUpd (ts.filter (fun t => t.type == "expense")) []

/-- Analysis.tsx line 140: `pieData.reduce((acc, curr) => acc + curr.value, 0)`. -/
def pieTotal (pie : List (String × JsNum)) : JsNum := jsum (pie.map Prod.snd)

/-- Analysis.tsx lines 244-248, the pie label
`((value / total) * 100).toFixed(0)`, as a JS number (before formatting). -/
def pieLabelPercent (value total : JsNum) : JsNum :=
  jmul (jdiv value total) (some 100)

/-- Sum of the `expense` field over all trend records. -/
def trendExpenseSum (ts : List Txn) : JsNum :=
  jsum ((computeMonthlyTrend ts).map (fun p => p.2.expense))

/-- The keys of an association map, in order. -/
def keys {V : Type} (m : List (String × V)) : List String := m.map Prod.fst

/-- A fixed date used in concrete examples. -/
def d0 : CalDate := ⟨2024, 0, 5⟩

/-- Spec-side description of "order of first encounter": keep each string of
`l` at its first occurrence, dropping the ones already seen. -/
def firstEncounterAux (seen : List String) : List String → List String
  | [] => []
  | a :: l =>
    if a ∈ seen then firstEncounterAux seen l
    else a :: firstEncounterAux (seen ++ [a]) l

/-- The distinct strings of `l`, in order of first occurrence. -/
def firstEncounterOrder (l : List String) : List String := firstEncounterAux [] l

/-- All stored values of an association map are finite. -/
def AllSomeVals (m : List (String × JsNum)) : Prop := ∀ p ∈ m, ∃ q : ℚ, p.2 = some q

/-- C1 counterexample input: an income row whose amount parses to NaN,
followed by an ordinary income row of amount 7. -/
def ctxC1 : List Txn := [⟨"income", none, d0, none⟩, ⟨"income", some 7, d0, none⟩]

/-- C3 counterexample input: a single expense of amount 0. -/
def ctxC3 : List Txn := [⟨"expense", some 0, d0, some "Makanan"⟩]

/-- C6 counterexample input: an uncategorized expense of 3 and an expense of 5
whose (live) category is literally named "Tanpa Kategori". -/
def ctxC6 : List Txn :=
  [⟨"expense", some 3, d0, none⟩, ⟨"expense", some 5, d0, some "Tanpa Kategori"⟩]

/-- Concrete input for witnesses: one income of 10, expenses of 4 (Makanan)
and 2 (uncategorized), in two different months. -/
def wEntries : List Txn :=
  [⟨"income", some 10, ⟨2024, 0, 5⟩, none⟩,
   ⟨"expense", some 4, ⟨2024, 0, 20⟩, some "Makanan"⟩,
   ⟨"expense", some 2, ⟨2024, 1, 1⟩, none⟩]

/-- Concrete input for the C10 witness: an expense of 2 and a row of the
unknown type "transfer" with amount 3. -/
def wUnknown : List Txn :=
  [⟨"expense", some 2, d0, none⟩, ⟨"transfer", some 3, d0, none⟩]

/-! ### Algebra of `jadd` and `jsum` -/

theorem jadd_zero_left (x : JsNum) : jadd (some 0) x = x := by
  cases x <;> simp [jadd]

theorem jadd_zero_right (x : JsNum) : jadd x (some 0) = x := by
  cases x <;> simp [jadd]

theorem jadd_comm (x y : JsNum) : jadd x y = jadd y x := by
  cases x <;> cases y <;> simp [jadd, add_comm]

theorem jadd_assoc (x y z : JsNum) : jadd (jadd x y) z = jadd x (jadd y z) := by
  cases x <;> cases y <;> cases z <;> simp [jadd, add_assoc]

theorem jadd_left_comm (x y z : JsNum) : jadd x (jadd y z) = jadd y (jadd x z) := by
  rw [← jadd_assoc, jadd_comm x y, jadd_assoc]

theorem foldl_jadd_eq (x : JsNum) (l : List JsNum) :
    l.foldl jadd x = jadd x (jsum l) := by
  induction l generalizing x with
  | nil => simp [jsum, List.foldl_nil, jadd_zero_right]
  | cons a l ih =>
    show l.foldl jadd (jadd x a) = _
    rw [ih]
    have h2 : jsum (a :: l) = jadd a (jsum l) := by
      show l.foldl jadd (jadd (some 0) a) = _
      rw [ih, jadd_zero_left]
    rw [h2, jadd_assoc]

theorem jsum_cons (a : JsNum) (l : List JsNum) : jsum (a :: l) = jadd a (jsum l) := by
  show l.foldl jadd (jadd (some 0) a) = _
  rw [foldl_jadd_eq, jadd_zero_left]

theorem jsum_append (l₁ l₂ : List JsNum) : jsum (l₁ ++ l₂) = jadd (jsum l₁) (jsum l₂) := by
  show (l₁ ++ l₂).foldl jadd (some 0) = _
  rw [List.foldl_append, foldl_jadd_eq]
  rfl

theorem sumQ_nil : sumQ [] = 0 := rfl

theorem sumQ_cons (t : Txn) (ts : List Txn) : sumQ (t :: ts) = amtQ t + sumQ ts := by
  simp [sumQ]

theorem Parseable.eq_some {t : Txn} (h : Parseable t) : t.amount = some (amtQ t) := by
  unfold Parseable at h
  cases ha : t.amount with
  | none => rw [ha] at h; simp at h
  | some q => simp [amtQ, ha]

theorem sumAmounts_eq_jsum (ts : List Txn) :
    sumAmounts ts = jsum (ts.map (fun t => t.amount)) := by
  unfold sumAmounts jsum
  rw [List.foldl_map]

theorem sumAmounts_cons (t : Txn) (ts : List Txn) :
    sumAmounts (t :: ts) = jadd t.amount (sumAmounts ts) := by
  rw [sumAmounts_eq_jsum, List.map_cons, jsum_cons, ← sumAmounts_eq_jsum]

theorem sumAmounts_parseable (ts : List Txn) (h : ∀ t ∈ ts, Parseable t) :
    sumAmounts ts = some (sumQ ts) := by
  induction ts with
  | nil => rfl
  | cons t ts ih =>
    rw [sumAmounts_cons, ih (fun x hx => h x (List.mem_cons_of_mem _ hx)),
      (h t (List.mem_cons_self t ts)).eq_some]
    simp [jadd, sumQ_cons]

/-! ### Association-map and grouping lemmas -/

theorem keys_mapSet {V : Type} (k : String) (v : V) (m : List (String × V)) :
    keys (mapSet k v m) = if k ∈ keys m then keys m else keys m ++ [k] := by
  induction m with
  | nil => simp [mapSet, keys]
  | cons p rest ih =>
    show keys (if p.1 = k then (k, v) :: rest else p :: mapSet k v rest) = _
    by_cases hp : p.1 = k
    · rw [if_pos hp]
      have hin : k ∈ keys (p :: rest) := by
        simp only [keys, List.map_cons, List.mem_cons]
        exact Or.inl hp.symm
      rw [if_pos hin]
      simp [keys, hp]
    · rw [if_neg hp]
      show p.1 :: keys (mapSet k v rest) = _
      rw [ih]
      by_cases hmem : k ∈ keys rest
      · rw [if_pos hmem, if_pos (show k ∈ keys (p :: rest) from List.mem_cons_of_mem _ hmem)]
        rfl
      · rw [if_neg hmem]
        have hout : k ∉ keys (p :: rest) := by
          simp only [keys, List.map_cons, List.mem_cons]
          rintro (h | h)
          · exact hp h.symm
          · exact hmem h
        rw [if_neg hout]
        rfl

theorem lookup_mapSet {V : Type} (a k : String) (v : V) (m : List (String × V)) :
    lookup? a (mapSet k v m) = if k = a then some v else lookup? a m := by
  induction m with
  | nil => simp [mapSet, lookup?]
  | cons p rest ih =>
    by_cases hp : p.1 = k
    · by_cases ha : k = a
      · simp [mapSet, hp, lookup?, ha]
      · have hpa : ¬p.1 = a := by rw [hp]; exact ha
        simp [mapSet, hp, lookup?, ha, hpa]
    · by_cases hpa : p.1 = a
      · have hka : ¬k = a := by intro h; exact hp (hpa.trans h.symm)
        have hak : ¬a = k := fun h => hka h.symm
        simp [mapSet, hp, lookup?, hpa, hka, hak]
      · simp [mapSet, hp, lookup?, hpa, ih]

theorem mem_mapSet {V : Type} (k : String) (v : V) (m : List (String × V))
    (p : String × V) (hp : p ∈ mapSet k v m) : p = (k, v) ∨ p ∈ m := by
  induction m with
  | nil => simp [mapSet] at hp; simp [hp]
  | cons q rest ih =>
    by_cases hq : q.1 = k
    · rw [mapSet, if_pos hq] at hp
      rcases List.mem_cons.mp hp with h | h
      · exact Or.inl h
      · exact Or.inr (List.mem_cons_of_mem _ h)
    · rw [mapSet, if_neg hq] at hp
      rcases List.mem_cons.mp hp with h | h
      · exact Or.inr (h ▸ List.mem_cons_self _ _)
      · rcases ih h with h2 | h2
        · exact Or.inl h2
        · exact Or.inr (List.mem_cons_of_mem _ h2)

theorem keys_groupFold {V : Type} (keyOf : Txn → String) (upd : Option V → Txn → V)
    (ts : List Txn) (m : List (String × V)) :
    keys (groupFold keyOf upd ts m) = keys m ++ firstEncounterAux (keys m) (ts.map keyOf) := by
  induction ts generalizing m with
  | nil => simp [groupFold, firstEncounterAux]
  | cons t ts ih =>
    show keys (groupFold keyOf upd ts (mapSet (keyOf t) _ m)) = _
    rw [ih, keys_mapSet]
    by_cases h : keyOf t ∈ keys m
    · rw [if_pos h]
      simp [firstEncounterAux, h]
    · rw [if_neg h]
      simp only [List.map_cons, firstEncounterAux, h, if_neg, not_false_iff]
      rw [List.append_assoc]
      rfl

theorem lookup_groupFold {V : Type} (keyOf : Txn → String) (upd : Option V → Txn → V)
    (a : String) (ts : List Txn) (m : List (String × V)) :
    lookup? a (groupFold keyOf upd ts m) =
      (ts.filter (fun t => keyOf t == a)).foldl (fun acc t => some (upd acc t)) (lookup? a m) := by
  induction ts generalizing m with
  | nil => rfl
  | cons t ts ih =>
    show lookup? a (groupFold keyOf upd ts (mapSet (keyOf t) _ m)) = _
    rw [ih, lookup_mapSet]
    by_cases h : keyOf t = a
    · simp [List.filter_cons, h]
    · simp [List.filter_cons, h]

theorem mem_firstEncounterAux (a : String) (l : List String) (seen : List String) :
    a ∈ firstEncounterAux seen l ↔ a ∈ l ∧ a ∉ seen := by
  induction l generalizing seen with
  | nil => simp [firstEncounterAux]
  | cons b l ih =>
    by_cases hb : b ∈ seen
    · rw [firstEncounterAux, if_pos hb, ih]
      constructor
      · rintro ⟨h1, h2⟩; exact ⟨List.mem_cons_of_mem _ h1, h2⟩
      · rintro ⟨h1, h2⟩
        rcases List.mem_cons.mp h1 with h | h
        · exact absurd (h ▸ hb) h2
        · exact ⟨h, h2⟩
    · rw [firstEncounterAux, if_neg hb]
      by_cases hab : a = b
      · subst hab
        simp [hb]
      · rw [List.mem_cons, or_iff_right hab, ih]
        simp [hab, hb]

theorem nodup_firstEncounterAux (l : List String) (seen : List String) :
    (firstEncounterAux seen l).Nodup := by
  induction l generalizing seen with
  | nil => simp [firstEncounterAux]
  | cons b l ih =>
    by_cases hb : b ∈ seen
    · rw [firstEncounterAux, if_pos hb]; exact ih seen
    · rw [firstEncounterAux, if_neg hb, List.nodup_cons]
      refine ⟨?_, ih _⟩
      rw [mem_firstEncounterAux]
      simp

theorem lookup_of_mem {V : Type} (m : List (String × V)) (hm : (keys m).Nodup)
    (p : String × V) (hp : p ∈ m) : lookup? p.1 m = some p.2 := by
  induction m with
  | nil => cases hp
  | cons q rest ih =>
    rcases List.mem_cons.mp hp with h | h
    · subst h
      simp [lookup?]
    · have hq : ¬q.1 = p.1 := by
        intro he
        rw [keys, List.map_cons, List.nodup_cons] at hm
        exact hm.1 (he ▸ List.mem_map_of_mem Prod.fst h)
      rw [lookup?, if_neg hq]
      exact ih (by rw [keys, List.map_cons, List.nodup_cons] at hm; exact hm.2) h

/-! ### The category breakdown: per-bucket values, keys, and the value sum -/

theorem bucket_foldl_some (l : List Txn) (s : ℚ) (h : ∀ t ∈ l, Parseable t) :
    l.foldl (fun acc t => some (bucketUpd acc t)) (some (some s)) = some (some (s + sumQ l)) := by
  induction l generalizing s with
  | nil => simp [sumQ]
  | cons t l ih =>
    have ht : t.amount = some (amtQ t) := (h t (List.mem_cons_self t l)).eq_some
    have hstep : bucketUpd (some (some s)) t = some (s + amtQ t) := by
      simp [bucketUpd, jadd, ht]
    rw [List.foldl_cons, hstep, ih (s + amtQ t) (fun x hx => h x (List.mem_cons_of_mem _ hx)),
      sumQ_cons]
    ring_nf

theorem filter_and_comm (p q : Txn → Bool) (l : List Txn) :
    l.filter (fun t => p t && q t) = l.filter (fun t => q t && p t) := by
  induction l with
  | nil => rfl
  | cons t l ih => simp only [List.filter_cons, Bool.and_comm, ih]

theorem breakdown_lookup (ts : List Txn) (a : String) (h : ∀ t ∈ ts, Parseable t) :
    lookup? a (computeCategoryBreakdown ts) =
      if ts.filter (fun t => t.type == "expense" && effName t == a) = [] then none
      else some (some (sumQ (ts.filter (fun t => t.type == "expense" && effName t == a)))) := by
  unfold computeCategoryBreakdown
  rw [lookup_groupFold, List.filter_filter,
    filter_and_comm (fun t => effName t == a) (fun t => t.type == "expense") ts]
  cases hl : ts.filter (fun t => t.type == "expense" && effName t == a) with
  | nil => rfl
  | cons t l =>
    have hsub : ∀ x ∈ t :: l, x ∈ ts := by
      intro x hx
      have : x ∈ ts.filter (fun t => t.type == "expense" && effName t == a) := hl ▸ hx
      exact (List.mem_filter.mp this).1
    have ht : t.amount = some (amtQ t) := (h t (hsub t (List.mem_cons_self t l))).eq_some
    have hstep : bucketUpd none t = some (amtQ t) := by
      simp [bucketUpd, jadd, ht]
    rw [if_neg (List.cons_ne_nil t l)]
    show (t :: l).foldl (fun acc t => some (bucketUpd acc t)) none = _
    rw [List.foldl_cons, hstep,
      bucket_foldl_some l (amtQ t) (fun x hx => h x (hsub x (List.mem_cons_of_mem _ hx))),
      sumQ_cons]

theorem keys_breakdown_nodup (ts : List Txn) :
    (keys (computeCategoryBreakdown ts)).Nodup := by
  unfold computeCategoryBreakdown
  rw [keys_groupFold]
  show (firstEncounterAux (keys ([] : List (String × JsNum))) _).Nodup
  exact nodup_firstEncounterAux _ _

theorem mem_keys_breakdown (ts : List Txn) (a : String) :
    a ∈ keys (computeCategoryBreakdown ts) ↔
      ∃ t ∈ ts, t.type = "expense" ∧ effName t = a := by
  unfold computeCategoryBreakdown
  rw [keys_groupFold]
  show a ∈ [] ++ firstEncounterAux (keys ([] : List (String × JsNum))) _ ↔ _
  rw [List.nil_append, mem_firstEncounterAux]
  simp only [List.mem_map, List.mem_filter, keys, List.map_nil, List.not_mem_nil,
    not_false_iff, and_true, beq_iff_eq]
  constructor
  · rintro ⟨t, ⟨hts, hty⟩, ha⟩
    exact ⟨t, hts, hty, ha⟩
  · rintro ⟨t, hts, hty, ha⟩
    exact ⟨t, ⟨hts, hty⟩, ha⟩

theorem jsum_vals_mapSet (k : String) (m : List (String × JsNum)) (hm : AllSomeVals m) (a : ℚ) :
    jsum ((mapSet k (jadd (some (((lookup? k m).getD (some 0)).getD 0)) (some a)) m).map Prod.snd)
      = jadd (jsum (m.map Prod.snd)) (some a) := by
  induction m with
  | nil =>
    show jsum [jadd (some ((Option.getD (none : Option JsNum) (some 0)).getD 0)) (some a)]
      = jadd (jsum ([] : List JsNum)) (some a)
    rw [jsum_cons]
    show jadd (jadd (some 0) (some a)) (jsum ([] : List JsNum)) = _
    rw [show jsum ([] : List JsNum) = some 0 from rfl, jadd_zero_right]
  | cons p rest ih =>
    by_cases hp : p.1 = k
    · obtain ⟨q, hq⟩ := hm p (List.mem_cons_self p rest)
      have hlook : lookup? k (p :: rest) = some p.2 := by simp [lookup?, hp]
      rw [hlook]
      show jsum ((if p.1 = k then _ else _ : List (String × JsNum)).map Prod.snd) = _
      rw [if_pos hp]
      simp only [List.map_cons, jsum_cons, hq]
      show jadd (jadd (some q) (some a)) (jsum (rest.map Prod.snd)) = _
      rw [jadd_assoc, jadd_comm (some a), ← jadd_assoc]
    · have hlook : lookup? k (p :: rest) = lookup? k rest := by simp [lookup?, hp]
      rw [hlook]
      show jsum ((if p.1 = k then _ else p :: mapSet k _ rest).map Prod.snd) = _
      rw [if_neg hp]
      simp only [List.map_cons, jsum_cons]
      rw [ih (fun x hx => hm x (List.mem_cons_of_mem _ hx)), jadd_assoc]

theorem allSomeVals_mapSet (k : String) (q : ℚ) (m : List (String × JsNum))
    (hm : AllSomeVals m) : AllSomeVals (mapSet k (some q) m) := by
  intro p hp
  rcases mem_mapSet k (some q) m p hp with h | h
  · exact ⟨q, by rw [h]⟩
  · exact hm p h

theorem breakdown_fold_sum (l : List Txn) :
    ∀ m : List (String × JsNum), (∀ t ∈ l, Parseable t) → AllSomeVals m →
      jsum ((groupFold effName bucketUpd l m).map Prod.snd) =
        jadd (jsum (m.map Prod.snd)) (some (sumQ l)) := by
  induction l with
  | nil =>
    intro m _ _
    show jsum (m.map Prod.snd) = _
    rw [sumQ_nil, jadd_zero_right]
  | cons t l ih =>
    intro m hl hm
    have ht : t.amount = some (amtQ t) := (hl t (List.mem_cons_self t l)).eq_some
    have hupd : bucketUpd (lookup? (effName t) m) t =
        jadd (some (((lookup? (effName t) m).getD (some 0)).getD 0)) (some (amtQ t)) := by
      rw [bucketUpd, ht]
    show jsum ((groupFold effName bucketUpd l (mapSet (effName t) _ m)).map Prod.snd) = _
    rw [ih (mapSet (effName t) (bucketUpd (lookup? (effName t) m) t) m)
      (fun x hx => hl x (List.mem_cons_of_mem _ hx))
      (by rw [hupd]
          show AllSomeVals (mapSet _ (some _) m)
          exact allSomeVals_mapSet _ _ m hm)]
    rw [hupd, jsum_vals_mapSet (effName t) m hm (amtQ t), jadd_assoc, sumQ_cons]
    rfl

/-! ### The monthly trend: keys and the expense sum -/

theorem keys_trend_eq (ts : List Txn) :
    keys (computeMonthlyTrend ts) = firstEncounterOrder (ts.map txnLabel) := by
  unfold computeMonthlyTrend firstEncounterOrder
  rw [keys_groupFold]
  rfl

theorem expSum_mapSet_keep (k : String) (m : List (String × MonthAgg)) (v : MonthAgg)
    (hv : v.expense = ((lookup? k m).getD ⟨some 0, some 0⟩).expense) :
    jsum ((mapSet k v m).map (fun p => p.2.expense)) =
      jsum (m.map (fun p => p.2.expense)) := by
  induction m with
  | nil =>
    show jsum [v.expense] = jsum []
    rw [hv]
    show jsum [(some 0 : JsNum)] = jsum []
    rw [jsum_cons, jadd_zero_left]
  | cons p rest ih =>
    show jsum ((if p.1 = k then (k, v) :: rest else p :: mapSet k v rest).map
      (fun p => p.2.expense)) = _
    by_cases hp : p.1 = k
    · rw [if_pos hp]
      have hv2 : v.expense = p.2.expense := by rw [hv]; simp [lookup?, hp]
      simp only [List.map_cons, jsum_cons, hv2]
    · rw [if_neg hp]
      have hv2 : v.expense = ((lookup? k rest).getD ⟨some 0, some 0⟩).expense := by
        rw [hv]; simp [lookup?, hp]
      simp only [List.map_cons, jsum_cons, ih hv2]

theorem expSum_mapSet_add (k : String) (m : List (String × MonthAgg)) (v : MonthAgg) (x : JsNum)
    (hv : v.expense = jadd ((lookup? k m).getD ⟨some 0, some 0⟩).expense x) :
    jsum ((mapSet k v m).map (fun p => p.2.expense)) =
      jadd (jsum (m.map (fun p => p.2.expense))) x := by
  induction m with
  | nil =>
    show jsum [v.expense] = jadd (jsum ([] : List JsNum)) x
    rw [hv]
    show jsum [jadd (some 0) x] = jadd (jsum ([] : List JsNum)) x
    rw [jsum_cons, show jsum ([] : List JsNum) = some 0 from rfl, jadd_zero_right]
  | cons p rest ih =>
    show jsum ((if p.1 = k then (k, v) :: rest else p :: mapSet k v rest).map
      (fun p => p.2.expense)) = _
    by_cases hp : p.1 = k
    · rw [if_pos hp]
      have hv2 : v.expense = jadd p.2.expense x := by rw [hv]; simp [lookup?, hp]
      simp only [List.map_cons, jsum_cons, hv2]
      rw [jadd_assoc, jadd_comm x, ← jadd_assoc]
    · rw [if_neg hp]
      have hv2 : v.expense = jadd ((lookup? k rest).getD ⟨some 0, some 0⟩).expense x := by
        rw [hv]; simp [lookup?, hp]
      simp only [List.map_cons, jsum_cons, ih hv2]
      rw [← jadd_assoc]

theorem trend_fold_expense (l : List Txn) :
    ∀ m : List (String × MonthAgg),
      jsum ((groupFold txnLabel trendUpd l m).map (fun p => p.2.expense)) =
        jadd (jsum (m.map (fun p => p.2.expense)))
          (sumAmounts (l.filter (fun t => !(t.type == "income")))) := by
  induction l with
  | nil =>
    intro m
    show jsum (m.map _) = jadd _ (sumAmounts [])
    rw [show sumAmounts [] = some 0 from rfl, jadd_zero_right]
  | cons t l ih =>
    intro m
    show jsum ((groupFold txnLabel trendUpd l
      (mapSet (txnLabel t) (trendUpd (lookup? (txnLabel t) m) t) m)).map (fun p => p.2.expense)) = _
    rw [ih]
    by_cases hty : t.type = "income"
    · have hkeep : (trendUpd (lookup? (txnLabel t) m) t).expense =
          ((lookup? (txnLabel t) m).getD ⟨some 0, some 0⟩).expense := by
        simp [trendUpd, hty]
      rw [expSum_mapSet_keep _ _ _ hkeep, List.filter_cons]
      simp [hty]
    · have hadd : (trendUpd (lookup? (txnLabel t) m) t).expense =
          jadd ((lookup? (txnLabel t) m).getD ⟨some 0, some 0⟩).expense t.amount := by
        simp [trendUpd, hty]
      rw [expSum_mapSet_add _ _ _ _ hadd, List.filter_cons]
      simp only [hty, beq_iff_eq, if_pos, Bool.not_eq_true', beq_eq_false_iff_ne, ne_eq,
        not_false_iff, if_true]
      rw [sumAmounts_cons, jadd_assoc]

theorem sumQ_filter_split (ts : List Txn) :
    sumQ (ts.filter (fun t => !(t.type == "income"))) =
      sumQ (ts.filter (fun t => t.type == "expense")) +
      sumQ (ts.filter (fun t => !(t.type == "income") && !(t.type == "expense"))) := by
  induction ts with
  | nil => simp [sumQ]
  | cons t ts ih =>
    by_cases h1 : t.type = "income"
    · have h2 : ¬t.type = "expense" := by rw [h1]; decide
      simp [List.filter_cons, h1, h2, sumQ_cons, ih]
      try ring
    · by_cases h2 : t.type = "expense"
      · simp [List.filter_cons, h1, h2, sumQ_cons, ih]
        try ring
      · simp [List.filter_cons, h1, h2, sumQ_cons, ih]
        try ring

/-! ### Claim C9 -/

/-- C9: the totals computation applied to the empty entry sequence returns
totalIncome = 0, totalExpense = 0 and balance = 0. -/
theorem computeTotals_empty :
    computeTotals [] =
      { totalIncome := some 0, totalExpense := some 0, balance := some 0 } := by
  simp [computeTotals, sumAmounts, jsub]

/-! ### Claim C5 -/

/-- C5: for every input sequence, the result of `computeTotals` satisfies
balance = totalIncome − totalExpense (exactly the `income - expense` of
fetchStats), and the balance may be negative, as witnessed by a single
expense of 1. -/
theorem balance_eq_income_sub_expense :
    (∀ ts : List Txn, (computeTotals ts).balance =
      jsub (computeTotals ts).totalIncome (computeTotals ts).totalExpense) ∧
    (computeTotals [⟨"expense", some 1, d0, none⟩]).balance = some (-1) := by
  constructor
  · intro ts; rfl
  · simp [computeTotals, sumAmounts, jadd, jsub]

/-! ### Claim C3 -/

/-- C3 counterexample: with a single expense of amount 0, the pie data is one
bucket of value 0 and the overall total is 0; the percentage the label
computes for that bucket (`(value / total) * 100`) is then NaN (non-finite),
not the zero the claim asserts. -/
theorem percent_zero_total_cex :
    computeCategoryBreakdown ctxC3 = [("Makanan", some 0)] ∧
    pieTotal (computeCategoryBreakdown ctxC3) = some 0 ∧
    pieLabelPercent (some 0) (pieTotal (computeCategoryBreakdown ctxC3)) = none ∧
    (none : JsNum) ≠ some 0 := by
  have hs1 : ("Makanan" : String) ≠ "" := by decide
  have h1 : computeCategoryBreakdown ctxC3 = [("Makanan", some 0)] := by
    norm_num [ctxC3, computeCategoryBreakdown, groupFold, mapSet, lookup?, bucketUpd,
      effName, jadd, d0, hs1]
  have h2 : pieTotal (computeCategoryBreakdown ctxC3) = some 0 := by
    rw [h1]
    norm_num [pieTotal, jsum, jadd]
  refine ⟨h1, h2, ?_, by simp⟩
  rw [h2]
  simp [pieLabelPercent, jdiv, jmul]

/-- C3 amended: the percentage computation never is a runtime failure (it is
a total function), but when the overall sum of bucket totals is zero — or
itself non-finite — the percentage of every bucket value is non-finite
(NaN/undefined), not zero. -/
theorem percent_zero_total_undefined (v : JsNum) :
    pieLabelPercent v (some 0) = none ∧ pieLabelPercent v none = none := by
  cases v <;> simp [pieLabelPercent, jdiv, jmul]

/-! ### Claim C1 -/

/-- C1 counterexample: on an income entry whose amount parses to NaN followed
by an income entry of amount 7, fetchStats' reduce propagates the NaN:
totalIncome is NaN (`none`), not the 7 that excluding (zeroing) the
malformed entry would give — the batch result is corrupted. -/
theorem totals_nan_cex :
    (computeTotals ctxC1).totalIncome = none ∧ (none : JsNum) ≠ some 7 := by
  constructor
  · simp [ctxC1, computeTotals, sumAmounts, jadd]
  · simp

/-- C1 amended: the totals computation is a total function, and on every
input whose amounts all parse to finite numbers it returns the finite sums
by kind; but an unparseable (NaN) amount is not excluded and not treated as
zero — it propagates through the running sum and poisons the affected total
(see the counterexample). -/
theorem totals_finite_on_parseable (ts : List Txn) (hp : ∀ t ∈ ts, Parseable t) :
    (computeTotals ts).totalIncome =
      some (sumQ (ts.filter (fun t => t.type == "income"))) ∧
    (computeTotals ts).totalExpense =
      some (sumQ (ts.filter (fun t => t.type == "expense"))) ∧
    (computeTotals ts).balance =
      some (sumQ (ts.filter (fun t => t.type == "income")) -
        sumQ (ts.filter (fun t => t.type == "expense"))) := by
  have hi := sumAmounts_parseable (ts.filter (fun t => t.type == "income"))
    (fun x hx => hp x (List.mem_filter.mp hx).1)
  have he := sumAmounts_parseable (ts.filter (fun t => t.type == "expense"))
    (fun x hx => hp x (List.mem_filter.mp hx).1)
  refine ⟨hi, he, ?_⟩
  show jsub (sumAmounts _) (sumAmounts _) = _
  rw [hi, he]
  rfl

/-- C1 amended, witness at a concrete parseable input. -/
theorem totals_finite_on_parseable_witness :
    (∀ t ∈ wEntries, Parseable t) ∧
    ((computeTotals wEntries).totalIncome =
      some (sumQ (wEntries.filter (fun t => t.type == "income"))) ∧
    (computeTotals wEntries).totalExpense =
      some (sumQ (wEntries.filter (fun t => t.type == "expense"))) ∧
    (computeTotals wEntries).balance =
      some (sumQ (wEntries.filter (fun t => t.type == "income")) -
        sumQ (wEntries.filter (fun t => t.type == "expense")))) :=
  ⟨by decide, totals_finite_on_parseable wEntries (by decide)⟩

/-! ### Claim C8 -/

/-- C8: the monthly trend output is ordered by first encounter — its records
appear exactly in the order in which the first entry of each month group
occurs in the input (`firstEncounterOrder` of the per-entry labels); hence
for an input sorted ascending by date the output is chronological. -/
theorem trend_first_encounter_order (ts : List Txn) :
    keys (computeMonthlyTrend ts) = firstEncounterOrder (ts.map txnLabel) :=
  keys_trend_eq ts

/-! ### Claim C4 -/

/-- C4: all entries sharing the same (year, month) of their date land in
exactly one trend record — the unique record labeled `monthLabel y m`
(independent of day-of-month, and for every input order, since `ts` is
universally quantified). -/
theorem trend_one_record_per_month (ts : List Txn) (y : ℕ) (mo : Fin 12)
    (h : ∃ t ∈ ts, t.date.year = y ∧ t.date.month = mo) :
    (keys (computeMonthlyTrend ts)).count (monthLabel y mo) = 1 := by
  rw [keys_trend_eq ts]
  apply List.count_eq_one_of_mem (nodup_firstEncounterAux _ _)
  show monthLabel y mo ∈ firstEncounterAux [] (ts.map txnLabel)
  rw [mem_firstEncounterAux]
  obtain ⟨t, hts, hy, hm⟩ := h
  refine ⟨?_, by simp⟩
  exact List.mem_map.mpr ⟨t, hts, by rw [txnLabel, hy, hm]⟩

/-- C4 witness at a concrete input containing a (2024, January) entry. -/
theorem trend_one_record_per_month_witness :
    (∃ t ∈ wEntries, t.date.year = 2024 ∧ t.date.month = (0 : Fin 12)) ∧
    (keys (computeMonthlyTrend wEntries)).count (monthLabel 2024 0) = 1 :=
  ⟨by decide, trend_one_record_per_month wEntries 2024 0 (by decide)⟩

/-! ### Claim C2 -/

/-- C2: for every sequence of ledger entries (all amounts parse, per the
data model's decimal amounts), the sum of all bucket totals of the expense
category breakdown equals the totalExpense of the totals computation. -/
theorem breakdown_sum_eq_totalExpense (ts : List Txn) (hp : ∀ t ∈ ts, Parseable t) :
    jsum ((computeCategoryBreakdown ts).map Prod.snd) = (computeTotals ts).totalExpense := by
  have hfil : ∀ t ∈ ts.filter (fun t => t.type == "expense"), Parseable t :=
    fun x hx => hp x (List.mem_filter.mp hx).1
  unfold computeCategoryBreakdown
  rw [breakdown_fold_sum (ts.filter (fun t => t.type == "expense")) [] hfil
    (by intro p hp2; cases hp2)]
  show jadd (jsum []) _ = _
  rw [show jsum ([] : List JsNum) = some 0 from rfl, jadd_zero_left]
  show _ = sumAmounts (ts.filter (fun t => t.type == "expense"))
  rw [sumAmounts_parseable _ hfil]

/-- C2 witness at a concrete input. -/
theorem breakdown_sum_eq_totalExpense_witness :
    (∀ t ∈ wEntries, Parseable t) ∧
    jsum ((computeCategoryBreakdown wEntries).map Prod.snd) =
      (computeTotals wEntries).totalExpense :=
  ⟨by decide, breakdown_sum_eq_totalExpense wEntries (by decide)⟩

/-! ### Claim C7 -/

/-- C7: with the expense filter in place, every bucket of the category
breakdown has as its total exactly the (finite) sum of the amounts of the
Expense-kind entries carrying that bucket's name — the amount of an
Income-kind entry (or of any non-expense row) never contributes to any
bucket. -/
theorem breakdown_bucket_expense_only (ts : List Txn) (hp : ∀ t ∈ ts, Parseable t)
    (b : String × JsNum) (hb : b ∈ computeCategoryBreakdown ts) :
    b.2 = some (sumQ (ts.filter (fun t => t.type == "expense" && effName t == b.1))) := by
  have hl := lookup_of_mem _ (keys_breakdown_nodup ts) b hb
  rw [breakdown_lookup ts b.1 hp] at hl
  by_cases hfil : ts.filter (fun t => t.type == "expense" && effName t == b.1) = []
  · rw [if_pos hfil] at hl; cases hl
  · rw [if_neg hfil] at hl
    exact (Option.some.inj hl).symm

/-- C7 witness: the "Makanan" bucket of the concrete input. -/
theorem breakdown_bucket_expense_only_witness :
    (∀ t ∈ wEntries, Parseable t) ∧
    ("Makanan", (some 4 : JsNum)) ∈ computeCategoryBreakdown wEntries ∧
    ((("Makanan", (some 4 : JsNum)) : String × JsNum).2 =
      some (sumQ (wEntries.filter (fun t =>
        t.type == "expense" && effName t == (("Makanan", (some 4 : JsNum)) :
          String × JsNum).1)))) := by
  have hs1 : ("Makanan" : String) ≠ "" := by decide
  have hs2 : ("Makanan" : String) ≠ "Tanpa Kategori" := by decide
  have hs3 : ("Tanpa Kategori" : String) ≠ "Makanan" := by decide
  have hbd : computeCategoryBreakdown wEntries =
      [("Makanan", some 4), ("Tanpa Kategori", some 2)] := by
    norm_num [wEntries, computeCategoryBreakdown, groupFold, mapSet, lookup?, bucketUpd,
      effName, jadd, hs1, hs2, hs3]
  have hmem : ("Makanan", (some 4 : JsNum)) ∈ computeCategoryBreakdown wEntries := by
    rw [hbd]; exact List.mem_cons_self _ _
  exact ⟨by decide, hmem, breakdown_bucket_expense_only wEntries (by decide) _ hmem⟩

/-! ### Claim C6 -/

/-- C6 counterexample: with one uncategorized expense of 3 and one expense
of 5 whose category is literally named "Tanpa Kategori", the code's
`t.categories?.name || 'Tanpa Kategori'` grouping merges both rows into the
one "Tanpa Kategori" bucket, whose total 8 is NOT the sum 3 of the
uncategorized entries' amounts as the claim asserts. -/
theorem uncategorized_bucket_cex :
    computeCategoryBreakdown ctxC6 = [("Tanpa Kategori", some 8)] ∧
    jsum ((ctxC6.filter (fun t => t.type == "expense" && t.category.isNone)).map
      (fun t => t.amount)) = some 3 ∧
    (some 8 : JsNum) ≠ some 3 := by
  refine ⟨?_, ?_, ?_⟩
  · norm_num [ctxC6, computeCategoryBreakdown, groupFold, mapSet, lookup?, bucketUpd,
      effName, jadd]
  · norm_num [ctxC6, jsum, jadd]
  · intro h
    exact absurd (Option.some.inj h) (by norm_num)

/-- C6 amended: expense entries with an absent (or dangling, nulled-out)
category are all placed in the single synthetic bucket labeled
"Tanpa Kategori" ("Uncategorized"), of which there is exactly one, and its
total is the sum of those entries' amounts — PROVIDED no entry's category
is literally named "Tanpa Kategori" and no category name is empty, since
the falsy-`||` fallback merges such entries into the same bucket (see the
counterexample). -/
theorem uncategorized_bucket_amended (ts : List Txn) (hp : ∀ t ∈ ts, Parseable t)
    (hn : ∀ t ∈ ts, t.category ≠ some "" ∧ t.category ≠ some "Tanpa Kategori")
    (hne : ∃ t ∈ ts, t.type = "expense" ∧ t.category = none) :
    (keys (computeCategoryBreakdown ts)).count "Tanpa Kategori" = 1 ∧
    lookup? "Tanpa Kategori" (computeCategoryBreakdown ts) =
      some (some (sumQ (ts.filter (fun t => t.type == "expense" && t.category.isNone)))) := by
  have heff : ∀ t ∈ ts, (effName t = "Tanpa Kategori" ↔ t.category = none) := by
    intro t ht
    obtain ⟨h1, h2⟩ := hn t ht
    cases hc : t.category with
    | none => simp [effName, hc]
    | some n =>
      have hn1 : ¬n = "" := by intro h; exact h1 (by rw [hc, h])
      have hn2 : ¬n = "Tanpa Kategori" := by intro h; exact h2 (by rw [hc, h])
      simp [effName, hc, hn1, hn2]
  constructor
  · apply List.count_eq_one_of_mem (keys_breakdown_nodup ts)
    rw [mem_keys_breakdown]
    obtain ⟨t, ht, hty, hcat⟩ := hne
    exact ⟨t, ht, hty, (heff t ht).mpr hcat⟩
  · rw [breakdown_lookup ts _ hp]
    have hfeq : ts.filter (fun t => t.type == "expense" && effName t == "Tanpa Kategori") =
        ts.filter (fun t => t.type == "expense" && t.category.isNone) := by
      apply List.filter_congr
      intro t ht
      have := heff t ht
      cases hc : t.category with
      | none => simp [this, hc]
      | some n => simp [hc] at this ⊢; simp [this]
    rw [hfeq]
    obtain ⟨t, ht, hty, hcat⟩ := hne
    have htf : t ∈ ts.filter (fun t => t.type == "expense" && t.category.isNone) :=
      List.mem_filter.mpr ⟨ht, by simp [hty, hcat]⟩
    rw [if_neg (List.ne_nil_of_mem htf)]

/-- C6 amended, witness at a concrete input with an uncategorized expense. -/
theorem uncategorized_bucket_amended_witness :
    (∀ t ∈ wEntries, Parseable t) ∧
    (∀ t ∈ wEntries, t.category ≠ some "" ∧ t.category ≠ some "Tanpa Kategori") ∧
    (∃ t ∈ wEntries, t.type = "expense" ∧ t.category = none) ∧
    ((keys (computeCategoryBreakdown wEntries)).count "Tanpa Kategori" = 1 ∧
    lookup? "Tanpa Kategori" (computeCategoryBreakdown wEntries) =
      some (some (sumQ (wEntries.filter (fun t =>
        t.type == "expense" && t.category.isNone))))) :=
  ⟨by decide, by decide, by decide,
    uncategorized_bucket_amended wEntries (by decide) (by decide) (by decide)⟩

/-! ### Claim C10 -/

/-- C10: every non-Income row — including rows of a kind that is neither
"income" nor "expense" — is added to the expense side of its month group by
the trend loop's bare `else`, while the totals computation counts such rows
in neither total; hence for a ledger-conforming input (finite, non-negative
amounts) containing an unknown-kind row of positive amount, the expense sum
over all trend records strictly exceeds totalExpense. -/
theorem trend_unknown_kind_expense (ts : List Txn) (hp : ∀ t ∈ ts, Parseable t)
    (hnn : ∀ t ∈ ts, 0 ≤ amtQ t)
    (hu : ∃ t ∈ ts, t.type ≠ "income" ∧ t.type ≠ "expense" ∧ 0 < amtQ t) :
    trendExpenseSum ts = some (sumQ (ts.filter (fun t => !(t.type == "income")))) ∧
    (computeTotals ts).totalExpense =
      some (sumQ (ts.filter (fun t => t.type == "expense"))) ∧
    sumQ (ts.filter (fun t => t.type == "expense")) <
      sumQ (ts.filter (fun t => !(t.type == "income"))) := by
  have hfil1 : ∀ x ∈ ts.filter (fun t => !(t.type == "income")), Parseable x :=
    fun x hx => hp x (List.mem_filter.mp hx).1
  have h1 : trendExpenseSum ts =
      some (sumQ (ts.filter (fun t => !(t.type == "income")))) := by
    unfold trendExpenseSum computeMonthlyTrend
    rw [trend_fold_expense]
    show jadd (jsum []) _ = _
    rw [show jsum ([] : List JsNum) = some 0 from rfl, jadd_zero_left,
      sumAmounts_parseable _ hfil1]
  have h2 : (computeTotals ts).totalExpense =
      some (sumQ (ts.filter (fun t => t.type == "expense"))) := by
    show sumAmounts _ = _
    exact sumAmounts_parseable _ (fun x hx => hp x (List.mem_filter.mp hx).1)
  refine ⟨h1, h2, ?_⟩
  rw [sumQ_filter_split ts]
  have hpos : 0 < sumQ (ts.filter (fun t =>
      !(t.type == "income") && !(t.type == "expense"))) := by
    obtain ⟨t, ht, hi, he, hpos0⟩ := hu
    have htf : t ∈ ts.filter (fun t => !(t.type == "income") && !(t.type == "expense")) :=
      List.mem_filter.mpr ⟨ht, by simp [hi, he]⟩
    have hmem : amtQ t ∈ (ts.filter (fun t =>
        !(t.type == "income") && !(t.type == "expense"))).map amtQ :=
      List.mem_map_of_mem amtQ htf
    have hle := List.single_le_sum (l := (ts.filter (fun t =>
        !(t.type == "income") && !(t.type == "expense"))).map amtQ) ?_ _ hmem
    · exact lt_of_lt_of_le hpos0 hle
    · intro x hx
      obtain ⟨y, hy, hxy⟩ := List.mem_map.mp hx
      exact hxy ▸ hnn y (List.mem_filter.mp hy).1
  linarith

/-- C10 witness at a concrete input containing a "transfer" row. -/
theorem trend_unknown_kind_expense_witness :
    (∀ t ∈ wUnknown, Parseable t) ∧
    (∀ t ∈ wUnknown, 0 ≤ amtQ t) ∧
    (∃ t ∈ wUnknown, t.type ≠ "income" ∧ t.type ≠ "expense" ∧ 0 < amtQ t) ∧
    (trendExpenseSum wUnknown =
      some (sumQ (wUnknown.filter (fun t => !(t.type == "income")))) ∧
    (computeTotals wUnknown).totalExpense =
      some (sumQ (wUnknown.filter (fun t => t.type == "expense"))) ∧
    sumQ (wUnknown.filter (fun t => t.type == "expense")) <
      sumQ (wUnknown.filter (fun t => !(t.type == "income")))) :=
  ⟨by decide, by decide, by decide,
    trend_unknown_kind_expense wUnknown (by decide) (by decide) (by decide)⟩

end Budget
